import Mathlib

/-
Verification of the geodesic ray integrator and volumetric accretion-disk
shading kernel of the Blackhole-Simulation repository.

The C++ double arithmetic of src/include/utils/Vector3.hpp and
src/src/physics/BlackHole.cpp is embedded over the real numbers; each
definition below mirrors the corresponding source function.
-/

namespace BH

noncomputable section

/-- 3D vector (Vector3.hpp), idealized over the reals. -/
structure Vector3 where
  x : ℝ
  y : ℝ
  z : ℝ

namespace Vector3

/-- Componentwise addition (operator+). -/
def add (a b : Vector3) : Vector3 := ⟨a.x + b.x, a.y + b.y, a.z + b.z⟩

instance : Add Vector3 := ⟨add⟩

/-- Scaling by a scalar (operator* with a double). -/
def smul (v : Vector3) (c : ℝ) : Vector3 := ⟨v.x * c, v.y * c, v.z * c⟩

/-- Division by a scalar (operator/ with a double). -/
def divs (v : Vector3) (c : ℝ) : Vector3 := ⟨v.x / c, v.y / c, v.z / c⟩

/-- Dot product. -/
def dot (a b : Vector3) : ℝ := a.x * b.x + a.y * b.y + a.z * b.z

/-- Cross product. -/
def cross (a b : Vector3) : Vector3 :=
  ⟨a.y * b.z - a.z * b.y, a.z * b.x - a.x * b.z, a.x * b.y - a.y * b.x⟩

/-- Squared Euclidean length. -/
def lengthSquared (v : Vector3) : ℝ := v.x * v.x + v.y * v.y + v.z * v.z

/-- Euclidean length. -/
def length (v : Vector3) : ℝ := Real.sqrt v.lengthSquared

/-- normalized(): divide by the length when it is positive, zero vector otherwise. -/
def normalized (v : Vector3) : Vector3 :=
  if 0 < v.length then v.divs v.length else ⟨0, 0, 0⟩

/-- All three components are nonnegative (colors are Vector3 RGB triples). -/
def Nonneg (v : Vector3) : Prop := 0 ≤ v.x ∧ 0 ≤ v.y ∧ 0 ≤ v.z

end Vector3

/-- A ray: origin plus direction (Vector3.hpp). -/
structure Ray where
  origin : Vector3
  direction : Vector3

/-- The Ray constructor of Vector3.hpp: it normalizes the direction. -/
def mkRay (origin direction : Vector3) : Ray := ⟨origin, direction.normalized⟩

/-- Semantics of C std::atan2 on the reals. -/
def atan2 (y x : ℝ) : ℝ :=
  if 0 < x then Real.arctan (y / x)
  else if x < 0 then
    (if 0 ≤ y then Real.arctan (y / x) + Real.pi else Real.arctan (y / x) - Real.pi)
  else if 0 < y then Real.pi / 2
  else if y < 0 then -(Real.pi / 2)
  else 0

/-- BlackHole::acceleration (BlackHole.cpp lines 8-16): pseudo-Newtonian
light-bending acceleration from the specific angular momentum. -/
def acceleration (rs : ℝ) (pos vel : Vector3) : Vector3 :=
  let r2 := pos.lengthSquared
  let r := Real.sqrt r2
  let h := pos.cross vel
  let h2 := h.lengthSquared
  let factor := -1.5 * rs * h2 / (r2 * r2 * r)
  pos.smul factor

/-- BlackHole::diskDensity (BlackHole.cpp lines 19-44): procedural accretion
disk density field. -/
def diskDensity (rs : ℝ) (pos : Vector3) : ℝ :=
  let r := pos.length
  if r < rs * 2.5 ∨ rs * 12.0 < r then 0
  else if 0.2 < |pos.y| then 0
  else
    let angle := atan2 pos.z pos.x
    let spiral := Real.sin (angle * 3.0 + r * 0.5)
    let rings := Real.sin (r * 2.0)
    let noise := (spiral + rings) * 0.5 + 0.5
    let fade1 := if r < rs * 3.0 then (r - rs * 2.5) / (rs * 0.5) else 1.0
    let fade := if rs * 10.0 < r then (rs * 12.0 - r) / (rs * 2.0) else fade1
    noise * fade * Real.exp (-|pos.y| * 10.0)

/-- The Keplerian orbital speed used by BlackHole::dopplerFactor
(BlackHole.cpp lines 52-53): sqrt(rs/(2 r)) capped at 0.5. -/
def vOrbital (rs r : ℝ) : ℝ := min (Real.sqrt (rs / (2.0 * r))) 0.5

/-- The orbital velocity vector of the disk material used by
BlackHole::dopplerFactor (BlackHole.cpp lines 58-59): tangent to the circular
orbit in the x-z plane, scaled by the orbital speed. -/
def orbitalVelocity (rs : ℝ) (pos : Vector3) : Vector3 :=
  let radial_xz := (Vector3.mk pos.x 0.0 pos.z).normalized
  (Vector3.mk radial_xz.z 0.0 (-radial_xz.x)).smul (vOrbital rs pos.length)

/-- BlackHole::dopplerFactor (BlackHole.cpp lines 47-73): special-relativistic
Doppler factor 1/(gamma (1 - beta_parallel)). -/
def dopplerFactor (rs : ℝ) (pos rayDir : Vector3) : ℝ :=
  let beta := vOrbital rs pos.length
  let gamma := 1 / Real.sqrt (1 - beta * beta)
  let beta_parallel := -((orbitalVelocity rs pos).dot rayDir)
  1 / (gamma * (1 - beta_parallel))

/-- BlackHole::diskColor (BlackHole.cpp lines 75-145): thermal gradient plus
Doppler beaming and color shift. -/
def diskColor (rs density r : ℝ) (pos rayDir : Vector3) (colorMode : ℤ) : Vector3 :=
  let t := min (max ((r - rs * 2.5) / (rs * 9.5)) 0.0) 1.0
  let hot : Vector3 :=
    if colorMode = 0 then ⟨0.7, 0.85, 1.0⟩
    else if colorMode = 1 then ⟨1.0, 0.9, 0.7⟩ else ⟨1.0, 0.85, 0.75⟩
  let mid : Vector3 :=
    if colorMode = 0 then ⟨0.75, 0.85, 1.0⟩
    else if colorMode = 1 then ⟨1.0, 0.75, 0.5⟩ else ⟨1.0, 0.6, 0.5⟩
  let cold : Vector3 :=
    if colorMode = 0 then ⟨0.5, 0.6, 0.8⟩
    else if colorMode = 1 then ⟨0.9, 0.6, 0.4⟩ else ⟨0.85, 0.4, 0.3⟩
  let doppler_bright : Vector3 :=
    if colorMode = 0 then ⟨0.85, 0.92, 1.0⟩
    else if colorMode = 1 then ⟨1.0, 0.95, 0.85⟩ else ⟨1.0, 0.9, 0.85⟩
  let doppler_dim : Vector3 :=
    if colorMode = 0 then ⟨0.5, 0.6, 0.8⟩
    else if colorMode = 1 then ⟨0.8, 0.5, 0.3⟩ else ⟨0.7, 0.3, 0.2⟩
  let baseColor :=
    if t < 0.5 then hot.smul (1.0 - t * 2.0) + mid.smul (t * 2.0)
    else mid.smul (1.0 - (t - 0.5) * 2.0) + cold.smul ((t - 0.5) * 2.0)
  let delta := dopplerFactor rs pos rayDir
  let intensity_boost := delta ^ 3
  let doppler_color :=
    if 1.0 < delta then
      baseColor.smul (1.0 - min ((delta - 1.0) * 2.0) 0.4) +
        doppler_bright.smul (min ((delta - 1.0) * 2.0) 0.4)
    else
      baseColor.smul (1.0 - min ((1.0 - delta) * 2.0) 0.3) +
        doppler_dim.smul (min ((1.0 - delta) * 2.0) 0.3)
  ((doppler_color.smul density).smul 4.0).smul intensity_boost

/-- The C cast (uint32_t)(double): truncation, then reduction modulo 2^32. -/
def u32cast (a : ℝ) : ℕ := (⌊a⌋).toNat % 4294967296

/-- BlackHole::sampleBackground (BlackHole.cpp lines 147-164): deterministic
procedural starfield over spherical texture coordinates. -/
def sampleBackground (dir : Vector3) : Vector3 :=
  let u := 0.5 + atan2 dir.z dir.x / (2 * Real.pi)
  let v := 0.5 - Real.arcsin dir.y / Real.pi
  let hash := (u32cast (u * 4000) * 19349663 + u32cast (v * 4000) * 83492791) % 4294967296
  if hash % 1000 < 2 then (Vector3.mk 1 1 1).smul (0.5 + ((hash % 100 : ℕ) : ℝ) / 200.0)
  else ⟨0, 0, 0⟩

/-- The per-ray integration state of BlackHole::trace (BlackHole.cpp lines
169-174). -/
structure TraceState where
  pos : Vector3
  vel : Vector3
  color : Vector3
  transmittance : ℝ
  totalDist : ℝ

/-- The adaptive step size of BlackHole::trace (BlackHole.cpp lines 203-208):
stepSize * (r / (2 rs + 0.1)), then raised to at least 0.02 and lowered to at
most 0.5 by the two following ifs. -/
def adaptiveDt (rs stepSize r : ℝ) : ℝ :=
  let dt0 := stepSize * (r / (rs * 2 + 0.1))
  let dt1 := if dt0 < 0.02 then 0.02 else dt0
  if 0.5 < dt1 then 0.5 else dt1

/-- The classical RK4 advance of BlackHole::trace (BlackHole.cpp lines
210-225): returns the next (position, velocity) pair before renormalization. -/
def rk4 (rs dt : ℝ) (pos vel : Vector3) : Vector3 × Vector3 :=
  let k1_v := acceleration rs pos vel
  let k1_p := vel
  let k2_v := acceleration rs (pos + k1_p.smul (dt * 0.5)) (vel + k1_v.smul (dt * 0.5))
  let k2_p := vel + k1_v.smul (dt * 0.5)
  let k3_v := acceleration rs (pos + k2_p.smul (dt * 0.5)) (vel + k2_v.smul (dt * 0.5))
  let k3_p := vel + k2_v.smul (dt * 0.5)
  let k4_v := acceleration rs (pos + k3_p.smul dt) (vel + k3_v.smul dt)
  let k4_p := vel + k3_v.smul dt
  (pos + (k1_p + k2_p.smul 2.0 + k3_p.smul 2.0 + k4_p).smul (dt / 6.0),
   vel + (k1_v + k2_v.smul 2.0 + k3_v.smul 2.0 + k4_v).smul (dt / 6.0))

/-- One iteration of the while loop of BlackHole::trace (BlackHole.cpp lines
186-234), entered after the event-horizon check: volumetric disk integration
(Beer's law with dt = stepSize, the in-code approximation), then the adaptive
step, the RK4 advance with velocity renormalization, and the distance update. -/
def traceStep (rs stepSize : ℝ) (s : TraceState) : TraceState :=
  let density := diskDensity rs s.pos
  let r := Real.sqrt s.pos.lengthSquared
  let stepTransmittance := Real.exp (-(density * 0.5) * stepSize)
  let color1 :=
    if 0.001 < density then
      s.color + (diskColor rs density r s.pos s.vel 0).smul
        (s.transmittance * (1 - stepTransmittance))
    else s.color
  let trans1 :=
    if 0.001 < density then s.transmittance * stepTransmittance else s.transmittance
  let dt := adaptiveDt rs stepSize r
  let pv := rk4 rs dt s.pos s.vel
  ⟨pv.1, pv.2.normalized, color1, trans1, s.totalDist + dt⟩

/-- The while loop of BlackHole::trace (BlackHole.cpp lines 176-240): loop
while totalDist < maxDist and transmittance > 0.01; inside the loop, return
the accumulated color at the event horizon; on loop exit add the background
scaled by the remaining transmittance. -/
def traceLoop (rs stepSize maxDist : ℝ) (s : TraceState) : Vector3 :=
  if h : s.totalDist < maxDist ∧ 0.01 < s.transmittance then
    if s.pos.lengthSquared < rs * rs then s.color
    else traceLoop rs stepSize maxDist (traceStep rs stepSize s)
  else s.color + (sampleBackground s.vel).smul s.transmittance
termination_by (⌈(maxDist - s.totalDist) / 0.02⌉).toNat
decreasing_by
  have hdt : 0.02 ≤ adaptiveDt rs stepSize (Real.sqrt s.pos.lengthSquared) := by
    unfold adaptiveDt
    dsimp only
    split_ifs with h1 h2 h3
    · norm_num
    · norm_num
    · norm_num
    · exact not_lt.mp h1
  have hstep : (traceStep rs stepSize s).totalDist
      = s.totalDist + adaptiveDt rs stepSize (Real.sqrt s.pos.lengthSquared) := rfl
  have h1 : s.totalDist < maxDist := h.1
  have hkey : (maxDist - (s.totalDist + adaptiveDt rs stepSize
        (Real.sqrt s.pos.lengthSquared))) / 0.02
      ≤ (maxDist - s.totalDist) / 0.02 - 1 := by
    have heq : (maxDist - s.totalDist) / 0.02 - 1
        = ((maxDist - s.totalDist) - 0.02) / 0.02 := by
      ring
    rw [heq]
    have h002 : (0:ℝ) < 0.02 := by norm_num
    exact (div_le_div_iff_of_pos_right h002).mpr (by linarith)
  have hc1 : ⌈(maxDist - (traceStep rs stepSize s).totalDist) / 0.02⌉
      ≤ ⌈(maxDist - s.totalDist) / 0.02⌉ - 1 := by
    rw [hstep]
    calc ⌈(maxDist - (s.totalDist + adaptiveDt rs stepSize
          (Real.sqrt s.pos.lengthSquared))) / 0.02⌉
        ≤ ⌈(maxDist - s.totalDist) / 0.02 - 1⌉ := Int.ceil_mono hkey
      _ = ⌈(maxDist - s.totalDist) / 0.02⌉ - 1 := Int.ceil_sub_one _
  have hpos : 0 < ⌈(maxDist - s.totalDist) / 0.02⌉ :=
    Int.ceil_pos.mpr (div_pos (by linarith) (by norm_num))
  omega

/-- The initial integration state of BlackHole::trace (BlackHole.cpp lines
169-174). -/
def initState (ray : Ray) : TraceState := ⟨ray.origin, ray.direction, ⟨0, 0, 0⟩, 1, 0⟩

/-- BlackHole::trace (BlackHole.cpp lines 166-241). -/
def trace (rs : ℝ) (ray : Ray) (stepSize maxDist : ℝ) : Vector3 :=
  traceLoop rs stepSize maxDist (initState ray)

/-- Fuel-indexed version of the trace loop, used to state an explicit bound on
the number of loop iterations: with fuel 0 remaining it answers none. -/
def traceLoopFuel (rs stepSize maxDist : ℝ) : ℕ → TraceState → Option Vector3
  | 0, _ => none
  | Nat.succ n, s =>
    if s.totalDist < maxDist ∧ 0.01 < s.transmittance then
      if s.pos.lengthSquared < rs * rs then some s.color
      else traceLoopFuel rs stepSize maxDist n (traceStep rs stepSize s)
    else some (s.color + (sampleBackground s.vel).smul s.transmittance)

/-- Invariant carried through the trace loop: the accumulated color has
nonnegative components, the transmittance is positive, and the velocity has
length at most one (it is renormalized every step). -/
def StateInv (s : TraceState) : Prop :=
  s.color.Nonneg ∧ 0 < s.transmittance ∧ s.vel.lengthSquared ≤ 1

namespace Vector3

@[simp] theorem add_x (a b : Vector3) : (a + b).x = a.x + b.x := rfl

@[simp] theorem add_y (a b : Vector3) : (a + b).y = a.y + b.y := rfl

@[simp] theorem add_z (a b : Vector3) : (a + b).z = a.z + b.z := rfl

@[simp] theorem smul_x (v : Vector3) (c : ℝ) : (v.smul c).x = v.x * c := rfl

@[simp] theorem smul_y (v : Vector3) (c : ℝ) : (v.smul c).y = v.y * c := rfl

@[simp] theorem smul_z (v : Vector3) (c : ℝ) : (v.smul c).z = v.z * c := rfl

theorem lengthSquared_nonneg (v : Vector3) : 0 ≤ v.lengthSquared :=
  add_nonneg (add_nonneg (mul_self_nonneg _) (mul_self_nonneg _)) (mul_self_nonneg _)

theorem length_nonneg (v : Vector3) : 0 ≤ v.length := Real.sqrt_nonneg _

theorem mul_self_length (v : Vector3) : v.length * v.length = v.lengthSquared :=
  Real.mul_self_sqrt (lengthSquared_nonneg v)

theorem divs_lengthSquared (v : Vector3) (c : ℝ) :
    (v.divs c).lengthSquared = v.lengthSquared / (c * c) := by
  unfold divs lengthSquared
  ring

theorem smul_lengthSquared (v : Vector3) (c : ℝ) :
    (v.smul c).lengthSquared = v.lengthSquared * (c * c) := by
  unfold smul lengthSquared
  ring

theorem normalized_lengthSquared_le (v : Vector3) :
    (normalized v).lengthSquared ≤ 1 := by
  unfold normalized
  split_ifs with h
  · rw [divs_lengthSquared, mul_self_length]
    have h2 : 0 < v.lengthSquared := by
      have := mul_self_length v
      nlinarith
    rw [div_self (ne_of_gt h2)]
  · unfold lengthSquared
    norm_num

theorem normalized_length_eq_one (v : Vector3) (h : 0 < v.length) :
    (normalized v).length = 1 := by
  have h2 : 0 < v.lengthSquared := by
    have := mul_self_length v
    nlinarith
  unfold normalized
  rw [if_pos h]
  show Real.sqrt ((v.divs v.length).lengthSquared) = 1
  rw [divs_lengthSquared, mul_self_length, div_self (ne_of_gt h2), Real.sqrt_one]

theorem normalized_y_of_y_zero (v : Vector3) (h : v.y = 0) : (normalized v).y = 0 := by
  unfold normalized
  split_ifs with hl
  · simp [divs, h]
  · rfl

theorem dot_sq_le (a b : Vector3) :
    a.dot b * a.dot b ≤ a.lengthSquared * b.lengthSquared := by
  unfold dot lengthSquared
  nlinarith [sq_nonneg (a.x * b.y - a.y * b.x), sq_nonneg (a.x * b.z - a.z * b.x),
    sq_nonneg (a.y * b.z - a.z * b.y)]

theorem nonneg_add {a b : Vector3} (ha : a.Nonneg) (hb : b.Nonneg) : (a + b).Nonneg := by
  obtain ⟨h1, h2, h3⟩ := ha
  obtain ⟨h4, h5, h6⟩ := hb
  refine ⟨?_, ?_, ?_⟩ <;> simp <;> linarith

theorem nonneg_smul {v : Vector3} {c : ℝ} (hv : v.Nonneg) (hc : 0 ≤ c) :
    (v.smul c).Nonneg := by
  obtain ⟨h1, h2, h3⟩ := hv
  exact ⟨mul_nonneg h1 hc, mul_nonneg h2 hc, mul_nonneg h3 hc⟩

end Vector3

theorem adaptiveDt_mem (rs stepSize r : ℝ) :
    0.02 ≤ adaptiveDt rs stepSize r ∧ adaptiveDt rs stepSize r ≤ 0.5 := by
  unfold adaptiveDt
  dsimp only
  constructor
  · split_ifs with h1 h2 h3
    · norm_num
    · norm_num
    · norm_num
    · exact not_lt.mp h1
  · split_ifs with h1 h2 h3
    · norm_num
    · norm_num
    · norm_num
    · exact not_lt.mp h3

theorem traceStep_transmittance (rs stepSize : ℝ) (s : TraceState) :
    (traceStep rs stepSize s).transmittance =
      if 0.001 < diskDensity rs s.pos then
        s.transmittance * Real.exp (-(diskDensity rs s.pos * 0.5) * stepSize)
      else s.transmittance := rfl

theorem traceStep_color (rs stepSize : ℝ) (s : TraceState) :
    (traceStep rs stepSize s).color =
      if 0.001 < diskDensity rs s.pos then
        s.color + (diskColor rs (diskDensity rs s.pos) (Real.sqrt s.pos.lengthSquared)
          s.pos s.vel 0).smul
          (s.transmittance * (1 - Real.exp (-(diskDensity rs s.pos * 0.5) * stepSize)))
      else s.color := rfl

theorem traceStep_totalDist (rs stepSize : ℝ) (s : TraceState) :
    (traceStep rs stepSize s).totalDist =
      s.totalDist + adaptiveDt rs stepSize (Real.sqrt s.pos.lengthSquared) := rfl

theorem traceStep_vel (rs stepSize : ℝ) (s : TraceState) :
    (traceStep rs stepSize s).vel =
      (rk4 rs (adaptiveDt rs stepSize (Real.sqrt s.pos.lengthSquared)) s.pos s.vel).2.normalized :=
  rfl

theorem traceStep_trans_pos (rs stepSize : ℝ) (s : TraceState)
    (h : 0 < s.transmittance) : 0 < (traceStep rs stepSize s).transmittance := by
  rw [traceStep_transmittance]
  split_ifs with hd
  · exact mul_pos h (Real.exp_pos _)
  · exact h

theorem traceStep_trans_le (rs stepSize : ℝ) (s : TraceState)
    (hss : 0 ≤ stepSize) (h : 0 ≤ s.transmittance) :
    (traceStep rs stepSize s).transmittance ≤ s.transmittance := by
  rw [traceStep_transmittance]
  split_ifs with hd
  · have hdpos : (0:ℝ) ≤ diskDensity rs s.pos := by linarith
    have harg : -(diskDensity rs s.pos * 0.5) * stepSize ≤ 0 := by
      have : 0 ≤ diskDensity rs s.pos * 0.5 * stepSize := by positivity
      linarith
    have hexp : Real.exp (-(diskDensity rs s.pos * 0.5) * stepSize) ≤ 1 := by
      calc Real.exp (-(diskDensity rs s.pos * 0.5) * stepSize)
          ≤ Real.exp 0 := Real.exp_le_exp.mpr harg
        _ = 1 := Real.exp_zero
    calc s.transmittance * Real.exp (-(diskDensity rs s.pos * 0.5) * stepSize)
        ≤ s.transmittance * 1 := mul_le_mul_of_nonneg_left hexp h
      _ = s.transmittance := mul_one _
  · exact le_refl _

theorem measure_dec (rs stepSize maxDist : ℝ) (s : TraceState)
    (h1 : s.totalDist < maxDist) :
    (⌈(maxDist - (traceStep rs stepSize s).totalDist) / 0.02⌉).toNat
      < (⌈(maxDist - s.totalDist) / 0.02⌉).toNat := by
  have hdt : 0.02 ≤ adaptiveDt rs stepSize (Real.sqrt s.pos.lengthSquared) :=
    (adaptiveDt_mem rs stepSize _).1
  have hkey : (maxDist - (s.totalDist + adaptiveDt rs stepSize
        (Real.sqrt s.pos.lengthSquared))) / 0.02
      ≤ (maxDist - s.totalDist) / 0.02 - 1 := by
    have heq : (maxDist - s.totalDist) / 0.02 - 1
        = ((maxDist - s.totalDist) - 0.02) / 0.02 := by
      ring
    rw [heq]
    exact (div_le_div_iff_of_pos_right (by norm_num)).mpr (by linarith)
  have hc1 : ⌈(maxDist - (traceStep rs stepSize s).totalDist) / 0.02⌉
      ≤ ⌈(maxDist - s.totalDist) / 0.02⌉ - 1 := by
    rw [traceStep_totalDist]
    calc ⌈(maxDist - (s.totalDist + adaptiveDt rs stepSize
          (Real.sqrt s.pos.lengthSquared))) / 0.02⌉
        ≤ ⌈(maxDist - s.totalDist) / 0.02 - 1⌉ := Int.ceil_mono hkey
      _ = ⌈(maxDist - s.totalDist) / 0.02⌉ - 1 := Int.ceil_sub_one _
  have hpos : 0 < ⌈(maxDist - s.totalDist) / 0.02⌉ :=
    Int.ceil_pos.mpr (div_pos (by linarith) (by norm_num))
  omega

theorem traceLoopFuel_eq (rs stepSize maxDist : ℝ) :
    ∀ n (s : TraceState), (⌈(maxDist - s.totalDist) / 0.02⌉).toNat < n →
      traceLoopFuel rs stepSize maxDist n s
        = some (traceLoop rs stepSize maxDist s) := by
  intro n
  induction n with
  | zero =>
    intro s h
    exact absurd h (Nat.not_lt_zero _)
  | succ n ih =>
    intro s hm
    rw [traceLoop]
    by_cases hcond : s.totalDist < maxDist ∧ 0.01 < s.transmittance
    · rw [traceLoopFuel, if_pos hcond, dif_pos hcond]
      by_cases hhor : s.pos.lengthSquared < rs * rs
      · rw [if_pos hhor, if_pos hhor]
      · rw [if_neg hhor, if_neg hhor]
        exact ih _ (lt_of_lt_of_le (measure_dec rs stepSize maxDist s hcond.1)
          (Nat.lt_succ_iff.mp hm))
    · rw [traceLoopFuel, if_neg hcond, dif_neg hcond]

theorem vOrbital_nonneg (rs r : ℝ) : 0 ≤ vOrbital rs r :=
  le_min (Real.sqrt_nonneg _) (by norm_num)

theorem vOrbital_le (rs r : ℝ) : vOrbital rs r ≤ 0.5 := min_le_right _ _

theorem orbitalVelocity_lengthSquared_le (rs : ℝ) (pos : Vector3) :
    (orbitalVelocity rs pos).lengthSquared
      ≤ vOrbital rs pos.length * vOrbital rs pos.length := by
  unfold orbitalVelocity
  dsimp only
  rw [Vector3.smul_lengthSquared]
  set w := (Vector3.mk pos.x 0.0 pos.z).normalized with hw
  have hy : w.y = 0 := Vector3.normalized_y_of_y_zero _ (by norm_num)
  have hls : (Vector3.mk w.z 0.0 (-w.x)).lengthSquared = w.lengthSquared := by
    unfold Vector3.lengthSquared
    dsimp
    rw [hy]
    ring
  rw [hls]
  have hle : w.lengthSquared ≤ 1 := Vector3.normalized_lengthSquared_le _
  nlinarith [Vector3.lengthSquared_nonneg w, mul_self_nonneg (vOrbital rs pos.length)]

theorem dot_orbital_bounds (rs : ℝ) (pos rayDir : Vector3)
    (hray : rayDir.lengthSquared ≤ 1) :
    -(1/2) ≤ (orbitalVelocity rs pos).dot rayDir
      ∧ (orbitalVelocity rs pos).dot rayDir ≤ 1/2 := by
  set d := (orbitalVelocity rs pos).dot rayDir with hd
  have h1 := Vector3.dot_sq_le (orbitalVelocity rs pos) rayDir
  have h2 := orbitalVelocity_lengthSquared_le rs pos
  have hv0 := vOrbital_nonneg rs pos.length
  have hv1 := vOrbital_le rs pos.length
  have hr0 := Vector3.lengthSquared_nonneg rayDir
  have ho0 := Vector3.lengthSquared_nonneg (orbitalVelocity rs pos)
  have hdd : d * d ≤ 1/4 := by nlinarith
  constructor
  · nlinarith [sq_nonneg (d + 1/2)]
  · nlinarith [sq_nonneg (d - 1/2)]

theorem sqrtOneSubB_pos (rs r : ℝ) :
    0 < Real.sqrt (1 - vOrbital rs r * vOrbital rs r) := by
  have h0 := vOrbital_nonneg rs r
  have h1 := vOrbital_le rs r
  exact Real.sqrt_pos.mpr (by nlinarith)

theorem sqrtOneSubB_le_one (rs r : ℝ) :
    Real.sqrt (1 - vOrbital rs r * vOrbital rs r) ≤ 1 := by
  have h0 := vOrbital_nonneg rs r
  calc Real.sqrt (1 - vOrbital rs r * vOrbital rs r)
      ≤ Real.sqrt 1 := Real.sqrt_le_sqrt (by nlinarith)
    _ = 1 := Real.sqrt_one

theorem dopplerFactor_eq (rs : ℝ) (pos rayDir : Vector3) :
    dopplerFactor rs pos rayDir
      = Real.sqrt (1 - vOrbital rs pos.length * vOrbital rs pos.length)
        / (1 - -((orbitalVelocity rs pos).dot rayDir)) := by
  unfold dopplerFactor
  dsimp only
  rw [one_div_mul_eq_div, one_div_div]

theorem dopplerFactor_pos (rs : ℝ) (pos rayDir : Vector3)
    (hray : rayDir.lengthSquared ≤ 1) : 0 < dopplerFactor rs pos rayDir := by
  rw [dopplerFactor_eq]
  apply div_pos (sqrtOneSubB_pos rs pos.length)
  have h := (dot_orbital_bounds rs pos rayDir hray).1
  linarith

theorem diskColor_nonneg (rs density r : ℝ) (pos rayDir : Vector3) (colorMode : ℤ)
    (hd : 0 ≤ density) (hray : rayDir.lengthSquared ≤ 1) :
    (diskColor rs density r pos rayDir colorMode).Nonneg := by
  have hdelta : 0 < dopplerFactor rs pos rayDir := dopplerFactor_pos rs pos rayDir hray
  unfold diskColor
  dsimp only
  apply Vector3.nonneg_smul _ (pow_nonneg hdelta.le 3)
  apply Vector3.nonneg_smul _ (by norm_num : (0:ℝ) ≤ 4.0)
  apply Vector3.nonneg_smul _ hd
  set hotV := (if colorMode = 0 then (⟨0.7, 0.85, 1.0⟩ : Vector3)
    else if colorMode = 1 then ⟨1.0, 0.9, 0.7⟩ else ⟨1.0, 0.85, 0.75⟩) with hhotv
  set midV := (if colorMode = 0 then (⟨0.75, 0.85, 1.0⟩ : Vector3)
    else if colorMode = 1 then ⟨1.0, 0.75, 0.5⟩ else ⟨1.0, 0.6, 0.5⟩) with hmidv
  set coldV := (if colorMode = 0 then (⟨0.5, 0.6, 0.8⟩ : Vector3)
    else if colorMode = 1 then ⟨0.9, 0.6, 0.4⟩ else ⟨0.85, 0.4, 0.3⟩) with hcoldv
  set brightV := (if colorMode = 0 then (⟨0.85, 0.92, 1.0⟩ : Vector3)
    else if colorMode = 1 then ⟨1.0, 0.95, 0.85⟩ else ⟨1.0, 0.9, 0.85⟩) with hbrightv
  set dimV := (if colorMode = 0 then (⟨0.5, 0.6, 0.8⟩ : Vector3)
    else if colorMode = 1 then ⟨0.8, 0.5, 0.3⟩ else ⟨0.7, 0.3, 0.2⟩) with hdimv
  have hhot : hotV.Nonneg := by
    rw [hhotv]
    split_ifs <;> exact ⟨by norm_num, by norm_num, by norm_num⟩
  have hmid : midV.Nonneg := by
    rw [hmidv]
    split_ifs <;> exact ⟨by norm_num, by norm_num, by norm_num⟩
  have hcold : coldV.Nonneg := by
    rw [hcoldv]
    split_ifs <;> exact ⟨by norm_num, by norm_num, by norm_num⟩
  have hbright : brightV.Nonneg := by
    rw [hbrightv]
    split_ifs <;> exact ⟨by norm_num, by norm_num, by norm_num⟩
  have hdim : dimV.Nonneg := by
    rw [hdimv]
    split_ifs <;> exact ⟨by norm_num, by norm_num, by norm_num⟩
  set t := min (max ((r - rs * 2.5) / (rs * 9.5)) 0.0) 1.0 with htv
  have ht0 : (0:ℝ) ≤ t := by
    rw [htv]
    exact le_min ((by norm_num : (0:ℝ) ≤ 0.0).trans (le_max_right _ _)) (by norm_num)
  have ht1 : t ≤ 1.0 := by
    rw [htv]
    exact min_le_right _ _
  set delta := dopplerFactor rs pos rayDir with hdeltav
  split_ifs with h1 h2 h3
  · refine Vector3.nonneg_add (Vector3.nonneg_smul ?_ ?_) (Vector3.nonneg_smul hbright ?_)
    · exact Vector3.nonneg_add (Vector3.nonneg_smul hhot (by linarith))
        (Vector3.nonneg_smul hmid (by linarith))
    · have := min_le_right ((delta - 1.0) * 2.0) 0.4
      linarith
    · exact le_min (by linarith) (by norm_num)
  · refine Vector3.nonneg_add (Vector3.nonneg_smul ?_ ?_) (Vector3.nonneg_smul hbright ?_)
    · exact Vector3.nonneg_add (Vector3.nonneg_smul hmid (by linarith))
        (Vector3.nonneg_smul hcold (by linarith))
    · have := min_le_right ((delta - 1.0) * 2.0) 0.4
      linarith
    · exact le_min (by linarith) (by norm_num)
  · refine Vector3.nonneg_add (Vector3.nonneg_smul ?_ ?_) (Vector3.nonneg_smul hdim ?_)
    · exact Vector3.nonneg_add (Vector3.nonneg_smul hhot (by linarith))
        (Vector3.nonneg_smul hmid (by linarith))
    · have := min_le_right ((1.0 - delta) * 2.0) 0.3
      linarith
    · exact le_min (by push_neg at h1; linarith) (by norm_num)
  · refine Vector3.nonneg_add (Vector3.nonneg_smul ?_ ?_) (Vector3.nonneg_smul hdim ?_)
    · exact Vector3.nonneg_add (Vector3.nonneg_smul hmid (by linarith))
        (Vector3.nonneg_smul hcold (by linarith))
    · have := min_le_right ((1.0 - delta) * 2.0) 0.3
      linarith
    · exact le_min (by push_neg at h1; linarith) (by norm_num)

theorem sampleBackground_nonneg (dir : Vector3) : (sampleBackground dir).Nonneg := by
  unfold sampleBackground
  dsimp only
  split_ifs with h
  · refine ⟨?_, ?_, ?_⟩ <;> dsimp [Vector3.smul] <;> positivity
  · exact ⟨le_refl 0, le_refl 0, le_refl 0⟩

theorem traceStep_inv (rs stepSize : ℝ) (s : TraceState) (hss : 0 ≤ stepSize)
    (h : StateInv s) : StateInv (traceStep rs stepSize s) := by
  obtain ⟨hc, ht, hv⟩ := h
  refine ⟨?_, ?_, ?_⟩
  · rw [traceStep_color]
    split_ifs with hd
    · apply Vector3.nonneg_add hc
      apply Vector3.nonneg_smul
      · exact diskColor_nonneg _ _ _ _ _ _ (by linarith) hv
      · apply mul_nonneg ht.le
        have harg : -(diskDensity rs s.pos * 0.5) * stepSize ≤ 0 := by nlinarith
        have hexp : Real.exp (-(diskDensity rs s.pos * 0.5) * stepSize) ≤ 1 := by
          calc Real.exp (-(diskDensity rs s.pos * 0.5) * stepSize)
              ≤ Real.exp 0 := Real.exp_le_exp.mpr harg
            _ = 1 := Real.exp_zero
        linarith
    · exact hc
  · exact traceStep_trans_pos rs stepSize s ht
  · rw [traceStep_vel]
    exact Vector3.normalized_lengthSquared_le _

theorem traceLoopFuel_nonneg (rs stepSize maxDist : ℝ) (hss : 0 ≤ stepSize) :
    ∀ n (s : TraceState) (c : Vector3), StateInv s →
      traceLoopFuel rs stepSize maxDist n s = some c → c.Nonneg := by
  intro n
  induction n with
  | zero =>
    intro s c _ h
    exact absurd h (by simp [traceLoopFuel])
  | succ n ih =>
    intro s c hinv heq
    rw [traceLoopFuel] at heq
    split_ifs at heq with h1 h2
    · have hce : s.color = c := Option.some.inj heq
      exact hce ▸ hinv.1
    · exact ih _ _ (traceStep_inv rs stepSize s hss hinv) heq
    · have hce : s.color + (sampleBackground s.vel).smul s.transmittance = c :=
        Option.some.inj heq
      exact hce ▸ Vector3.nonneg_add hinv.1
        (Vector3.nonneg_smul (sampleBackground_nonneg _) hinv.2.1.le)

theorem traceLoop_nonneg (rs stepSize maxDist : ℝ) (hss : 0 ≤ stepSize)
    (s : TraceState) (hinv : StateInv s) : (traceLoop rs stepSize maxDist s).Nonneg := by
  have h := traceLoopFuel_eq rs stepSize maxDist
    ((⌈(maxDist - s.totalDist) / 0.02⌉).toNat + 1) s (Nat.lt_succ_self _)
  exact traceLoopFuel_nonneg rs stepSize maxDist hss _ s _ hinv h

theorem length_mk_x (a : ℝ) (ha : 0 ≤ a) : (Vector3.mk a 0 0).length = a := by
  unfold Vector3.length Vector3.lengthSquared
  dsimp
  rw [show a * a + 0 * 0 + 0 * 0 = a ^ 2 by ring, Real.sqrt_sq ha]

theorem atan2_zero_of_pos (x : ℝ) (hx : 0 < x) : atan2 0 x = 0 := by
  unfold atan2
  rw [if_pos hx, zero_div, Real.arctan_zero]

theorem diskDensity_pi : diskDensity 1 ⟨Real.pi, 0, 0⟩ = 1 := by
  have h3 := Real.pi_gt_three
  have h4 := Real.pi_le_four
  have hlen : (Vector3.mk Real.pi 0 0).length = Real.pi := length_mk_x _ Real.pi_pos.le
  unfold diskDensity
  dsimp only
  rw [hlen]
  rw [if_neg (by push_neg; constructor <;> nlinarith :
    ¬(Real.pi < 1 * 2.5 ∨ (1:ℝ) * 12.0 < Real.pi))]
  rw [if_neg (by norm_num : ¬((0.2:ℝ) < |(0:ℝ)|))]
  rw [atan2_zero_of_pos _ Real.pi_pos]
  rw [show (0:ℝ) * 3.0 + Real.pi * 0.5 = Real.pi / 2 by ring, Real.sin_pi_div_two]
  rw [show Real.pi * 2.0 = 2 * Real.pi by ring, Real.sin_two_pi]
  rw [if_neg (by nlinarith : ¬((1:ℝ) * 10.0 < Real.pi))]
  rw [if_neg (by nlinarith : ¬(Real.pi < 1 * 3.0))]
  norm_num [Real.exp_zero]

theorem diskDensity_highpoint :
    diskDensity 1 ⟨5 * Real.pi / 4 * Real.cos (-(Real.pi / 24)), 0,
      5 * Real.pi / 4 * Real.sin (-(Real.pi / 24))⟩ = 1.5 := by
  have h3 := Real.pi_gt_three
  have h4 := Real.pi_le_four
  have hπ0 := Real.pi_pos
  set θ := -(Real.pi / 24) with hθv
  set R := 5 * Real.pi / 4 with hRv
  have hR0 : 0 < R := by rw [hRv]; positivity
  have hθ1 : -(Real.pi / 2) < θ := by rw [hθv]; nlinarith
  have hθ2 : θ < Real.pi / 2 := by rw [hθv]; nlinarith
  have hcos : 0 < Real.cos θ := Real.cos_pos_of_mem_Ioo ⟨hθ1, hθ2⟩
  have hLS : (Vector3.mk (R * Real.cos θ) 0 (R * Real.sin θ)).lengthSquared = R ^ 2 := by
    unfold Vector3.lengthSquared
    dsimp
    nlinarith [Real.sin_sq_add_cos_sq θ]
  have hlen : (Vector3.mk (R * Real.cos θ) 0 (R * Real.sin θ)).length = R := by
    unfold Vector3.length
    rw [hLS, Real.sqrt_sq hR0.le]
  have hx : 0 < R * Real.cos θ := mul_pos hR0 hcos
  have hangle : atan2 (R * Real.sin θ) (R * Real.cos θ) = θ := by
    unfold atan2
    rw [if_pos hx, mul_div_mul_left _ _ (ne_of_gt hR0), ← Real.tan_eq_sin_div_cos,
      Real.arctan_tan hθ1 hθ2]
  unfold diskDensity
  dsimp only
  rw [hlen, hangle]
  rw [if_neg (by push_neg; constructor <;> (rw [hRv]; nlinarith) :
    ¬(R < 1 * 2.5 ∨ (1:ℝ) * 12.0 < R))]
  rw [if_neg (by norm_num : ¬((0.2:ℝ) < |(0:ℝ)|))]
  rw [show θ * 3.0 + R * 0.5 = Real.pi / 2 by rw [hθv, hRv]; ring, Real.sin_pi_div_two]
  rw [show R * 2.0 = Real.pi / 2 + 2 * Real.pi by rw [hRv]; ring, Real.sin_add_two_pi,
    Real.sin_pi_div_two]
  rw [if_neg (by rw [hRv]; nlinarith : ¬((1:ℝ) * 10.0 < R))]
  rw [if_neg (by rw [hRv]; nlinarith : ¬(R < 1 * 3.0))]
  norm_num [Real.exp_zero]

theorem dot_orbital_le_vOrbital (rs : ℝ) (pos rayDir : Vector3)
    (hray : rayDir.lengthSquared ≤ 1) :
    -(vOrbital rs pos.length) ≤ (orbitalVelocity rs pos).dot rayDir
      ∧ (orbitalVelocity rs pos).dot rayDir ≤ vOrbital rs pos.length := by
  set d := (orbitalVelocity rs pos).dot rayDir with hd
  set B := vOrbital rs pos.length with hB
  have h1 := Vector3.dot_sq_le (orbitalVelocity rs pos) rayDir
  have h2 := orbitalVelocity_lengthSquared_le rs pos
  have hB0 : 0 ≤ B := vOrbital_nonneg rs pos.length
  have hr0 := Vector3.lengthSquared_nonneg rayDir
  have ho0 := Vector3.lengthSquared_nonneg (orbitalVelocity rs pos)
  have hdd : d * d ≤ B * B := by nlinarith
  constructor
  · nlinarith [sq_nonneg (d + B)]
  · nlinarith [sq_nonneg (d - B)]

theorem vOrbital_two : vOrbital 1 2 = 0.5 := by
  unfold vOrbital
  rw [show (1:ℝ) / (2.0 * 2) = (1/2 : ℝ) ^ 2 by norm_num, Real.sqrt_sq (by norm_num)]
  norm_num

theorem orbitalVelocity_eval : orbitalVelocity 1 ⟨2, 0, 0⟩ = ⟨0, 0, -0.5⟩ := by
  have hl2 : (Vector3.mk 2 0.0 0).length = 2 := by
    unfold Vector3.length Vector3.lengthSquared
    dsimp
    rw [show (2:ℝ) * 2 + 0.0 * 0.0 + 0 * 0 = 2 ^ 2 by norm_num, Real.sqrt_sq (by norm_num)]
  have hrad : (Vector3.mk 2 0.0 0).normalized = ⟨1, 0, 0⟩ := by
    unfold Vector3.normalized
    rw [hl2, if_pos (by norm_num : (0:ℝ) < 2)]
    unfold Vector3.divs
    dsimp
    norm_num [Vector3.mk.injEq]
  have hlen : (Vector3.mk (2:ℝ) 0 0).length = 2 := length_mk_x 2 (by norm_num)
  unfold orbitalVelocity
  dsimp only
  rw [hrad, hlen, vOrbital_two]
  norm_num [Vector3.smul, Vector3.mk.injEq]

/-- C1: whenever a trace-loop iteration starts with |pos|^2 < rs^2 (and the
loop conditions hold), the loop returns the accumulated color immediately with
no sampleBackground contribution; a ray whose origin lies inside the horizon
traced with the default stepSize 0.1 and maxDist 100 yields exactly (0,0,0). -/
theorem C1_horizon_absorption (rs : ℝ) :
    (∀ (stepSize maxDist : ℝ) (s : TraceState), s.totalDist < maxDist →
      0.01 < s.transmittance → s.pos.lengthSquared < rs * rs →
      traceLoop rs stepSize maxDist s = s.color) ∧
    (∀ ray : Ray, ray.origin.lengthSquared < rs * rs →
      trace rs ray 0.1 100 = ⟨0, 0, 0⟩) := by
  have hloop : ∀ (stepSize maxDist : ℝ) (s : TraceState), s.totalDist < maxDist →
      0.01 < s.transmittance → s.pos.lengthSquared < rs * rs →
      traceLoop rs stepSize maxDist s = s.color := by
    intro ss md s h1 h2 h3
    rw [traceLoop, dif_pos ⟨h1, h2⟩, if_pos h3]
  refine ⟨hloop, fun ray h => ?_⟩
  exact hloop 0.1 100 (initState ray) (show (0:ℝ) < 100 by norm_num)
    (show (0.01:ℝ) < 1 by norm_num) h

/-- C1 witness: a concrete ray starting at the origin of a unit-rs black hole
is absorbed and returns pure black. -/
theorem C1_witness :
    (Vector3.mk 0 0 0).lengthSquared < 1 * 1 ∧
      trace 1 (mkRay ⟨0, 0, 0⟩ ⟨0, 0, 1⟩) 0.1 100 = ⟨0, 0, 0⟩ := by
  have h : (Vector3.mk 0 0 0).lengthSquared < 1 * 1 := by
    unfold Vector3.lengthSquared
    norm_num
  exact ⟨h, (C1_horizon_absorption 1).2 (mkRay ⟨0, 0, 0⟩ ⟨0, 0, 1⟩) h⟩

/-- C2 (amended): for nonnegative stepSize (the contract's parameter domain,
default 0.1), the transmittance starts at 1.0, stays strictly positive and at
most 1, and is non-increasing at every iteration of the trace loop; for
negative stepSize the Beer factor exceeds 1 on disk hits, so the restriction
is necessary. -/
theorem C2_transmittance_monotone (rs stepSize : ℝ) (hss : 0 ≤ stepSize) (ray : Ray) :
    (initState ray).transmittance = 1 ∧
    ∀ n : ℕ,
      0 < ((traceStep rs stepSize)^[n] (initState ray)).transmittance ∧
      ((traceStep rs stepSize)^[n] (initState ray)).transmittance ≤ 1 ∧
      ((traceStep rs stepSize)^[n + 1] (initState ray)).transmittance
        ≤ ((traceStep rs stepSize)^[n] (initState ray)).transmittance := by
  constructor
  · rfl
  · intro n
    induction n with
    | zero =>
      refine ⟨?_, ?_, ?_⟩
      · exact (show (0:ℝ) < 1 by norm_num)
      · exact (show (1:ℝ) ≤ 1 by norm_num)
      · rw [Function.iterate_succ_apply']
        exact traceStep_trans_le rs stepSize _ hss (show (0:ℝ) ≤ 1 by norm_num)
    | succ n ih =>
      obtain ⟨ih1, ih2, ih3⟩ := ih
      have h1 : 0 < ((traceStep rs stepSize)^[n + 1] (initState ray)).transmittance := by
        rw [Function.iterate_succ_apply']
        exact traceStep_trans_pos rs stepSize _ ih1
      refine ⟨h1, le_trans ih3 ih2, ?_⟩
      rw [Function.iterate_succ_apply' (traceStep rs stepSize) (n + 1)]
      exact traceStep_trans_le rs stepSize _ hss h1.le

/-- C2 witness: concrete instantiation at rs = 1, the default stepSize 0.1 and
a concrete ray; the initial transmittance is exactly 1. -/
theorem C2_witness :
    (initState (mkRay ⟨0, 0, 0⟩ ⟨0, 0, 1⟩)).transmittance = 1 :=
  (C2_transmittance_monotone 1 0.1 (by norm_num) (mkRay ⟨0, 0, 0⟩ ⟨0, 0, 1⟩)).1

/-- C2 counterexample: with stepSize = -0.1 the very first trace-loop
iteration of the ray starting at (pi, 0, 0) (disk density 1 there, rs = 1)
multiplies the transmittance by exp(0.05) > 1: the transmittance increases and
leaves (0, 1], so over all executions of trace it is neither non-increasing
nor bounded by 1. -/
theorem C2_counterexample :
    (initState (mkRay ⟨Real.pi, 0, 0⟩ ⟨0, 0, 1⟩)).transmittance
        < (traceStep 1 (-0.1) (initState (mkRay ⟨Real.pi, 0, 0⟩ ⟨0, 0, 1⟩))).transmittance ∧
      1 < (traceStep 1 (-0.1) (initState (mkRay ⟨Real.pi, 0, 0⟩ ⟨0, 0, 1⟩))).transmittance := by
  have hpos : (initState (mkRay ⟨Real.pi, 0, 0⟩ ⟨0, 0, 1⟩)).pos = ⟨Real.pi, 0, 0⟩ := rfl
  have hs : (initState (mkRay ⟨Real.pi, 0, 0⟩ ⟨0, 0, 1⟩)).transmittance = 1 := rfl
  have hval : (traceStep 1 (-0.1) (initState (mkRay ⟨Real.pi, 0, 0⟩ ⟨0, 0, 1⟩))).transmittance
      = Real.exp (-(1 * 0.5) * (-0.1)) := by
    rw [traceStep_transmittance, hpos, diskDensity_pi,
      if_pos (by norm_num : (0.001:ℝ) < 1), hs, one_mul]
  have hgt : (1:ℝ) < Real.exp (-(1 * 0.5) * (-0.1)) := by
    calc (1:ℝ) = Real.exp 0 := Real.exp_zero.symm
      _ < Real.exp (-(1 * 0.5) * (-0.1)) := Real.exp_lt_exp.mpr (by norm_num)
  constructor
  · rw [hs, hval]
    exact hgt
  · rw [hval]
    exact hgt

/-- C6: the geodesic integrator's acceleration equals the position scaled by
-1.5 rs |p x v|^2 / (|p|^4 |p|). -/
theorem C6_acceleration_law (rs : ℝ) (pos vel : Vector3) :
    acceleration rs pos vel
      = pos.smul (-1.5 * rs * (pos.cross vel).lengthSquared
          / (pos.length ^ 4 * pos.length)) := by
  unfold acceleration
  dsimp only
  have h1 : pos.length ^ 4 * pos.length
      = pos.lengthSquared * pos.lengthSquared * Real.sqrt pos.lengthSquared := by
    have h := Vector3.mul_self_length pos
    calc pos.length ^ 4 * pos.length
        = (pos.length * pos.length) * (pos.length * pos.length) * pos.length := by ring
      _ = pos.lengthSquared * pos.lengthSquared * pos.length := by rw [h]
      _ = pos.lengthSquared * pos.lengthSquared * Real.sqrt pos.lengthSquared := rfl
  rw [h1]

/-- C7: the trace loop terminates: every iteration advances totalDist by at
least the minimum step 0.02, and the whole loop finishes within
(ceil of maxDist / 0.02) + 1 iterations, as witnessed by the fuel-indexed loop
agreeing with trace on that fuel. -/
theorem C7_terminates (rs stepSize maxDist : ℝ) (ray : Ray) :
    (∀ s : TraceState, s.totalDist + 0.02 ≤ (traceStep rs stepSize s).totalDist) ∧
    traceLoopFuel rs stepSize maxDist ((⌈maxDist / 0.02⌉).toNat + 1) (initState ray)
      = some (trace rs ray stepSize maxDist) := by
  constructor
  · intro s
    rw [traceStep_totalDist]
    have h := (adaptiveDt_mem rs stepSize (Real.sqrt s.pos.lengthSquared)).1
    linarith
  · have h : (⌈(maxDist - (initState ray).totalDist) / 0.02⌉).toNat
        < (⌈maxDist / 0.02⌉).toNat + 1 := by
      have h0 : (initState ray).totalDist = 0 := rfl
      rw [h0, sub_zero]
      omega
    exact traceLoopFuel_eq rs stepSize maxDist _ _ h

/-- C8: trace and sampleBackground are pure functions of their arguments:
identical inputs give identical colors. -/
theorem C8_deterministic :
    (∀ d1 d2 : Vector3, d1 = d2 → sampleBackground d1 = sampleBackground d2) ∧
    (∀ (rs : ℝ) (ray1 ray2 : Ray) (stepSize maxDist : ℝ), ray1 = ray2 →
      trace rs ray1 stepSize maxDist = trace rs ray2 stepSize maxDist) := by
  constructor
  · intro d1 d2 h
    rw [h]
  · intro rs r1 r2 ss md h
    rw [h]

/-- C8 witness: concrete repeated calls agree. -/
theorem C8_witness :
    sampleBackground ⟨1, 0, 0⟩ = sampleBackground ⟨1, 0, 0⟩ ∧
      trace 1 (mkRay ⟨0, 0, -20⟩ ⟨0, 0, 1⟩) 0.1 100
        = trace 1 (mkRay ⟨0, 0, -20⟩ ⟨0, 0, 1⟩) 0.1 100 :=
  ⟨C8_deterministic.1 _ _ rfl, C8_deterministic.2 1 _ _ 0.1 100 rfl⟩

/-- C9: normalized() is total: zero-length vectors map to the zero vector
(the division is guarded by len > 0), positive-length vectors map to the
vector divided by its length, which has unit length; consequently every Ray
built by the constructor stores a unit-length or zero direction. -/
theorem C9_normalized_total :
    (∀ v : Vector3, v.length = 0 → v.normalized = ⟨0, 0, 0⟩) ∧
    (∀ v : Vector3, 0 < v.length →
      v.normalized = v.divs v.length ∧ v.normalized.length = 1) ∧
    (∀ origin direction : Vector3,
      (mkRay origin direction).direction.length = 1 ∨
        (mkRay origin direction).direction = ⟨0, 0, 0⟩) := by
  refine ⟨?_, ?_, ?_⟩
  · intro v h
    unfold Vector3.normalized
    rw [if_neg]
    rw [h]
    norm_num
  · intro v h
    constructor
    · unfold Vector3.normalized
      rw [if_pos h]
    · exact Vector3.normalized_length_eq_one v h
  · intro o d
    by_cases h : 0 < d.length
    · left
      exact Vector3.normalized_length_eq_one d h
    · right
      show d.normalized = ⟨0, 0, 0⟩
      unfold Vector3.normalized
      rw [if_neg h]

/-- C9 witness: the zero vector normalizes to the zero vector, and a concrete
nonzero vector normalizes to a unit vector. -/
theorem C9_witness :
    (Vector3.mk 0 0 0).length = 0 ∧ (Vector3.mk 0 0 0).normalized = ⟨0, 0, 0⟩ ∧
      0 < (Vector3.mk 3 4 0).length ∧ (Vector3.mk 3 4 0).normalized.length = 1 := by
  have h0 : (Vector3.mk 0 0 0).length = 0 := by
    unfold Vector3.length Vector3.lengthSquared
    dsimp
    norm_num
  have h34 : (Vector3.mk 3 4 0).length = 5 := by
    unfold Vector3.length Vector3.lengthSquared
    dsimp
    rw [show (3:ℝ) * 3 + 4 * 4 + 0 * 0 = 5 ^ 2 by norm_num, Real.sqrt_sq (by norm_num)]
  refine ⟨h0, C9_normalized_total.1 _ h0, ?_, (C9_normalized_total.2.1 _ ?_).2⟩ <;>
    rw [h34] <;> norm_num


theorem sampleBackground_x_le_one (dir : Vector3) : (sampleBackground dir).x ≤ 1 := by
  unfold sampleBackground
  dsimp only
  split_ifs with h
  · rw [Vector3.smul_x]
    set N := (u32cast ((0.5 + atan2 dir.z dir.x / (2 * Real.pi)) * 4000) * 19349663 +
      u32cast ((0.5 - Real.arcsin dir.y / Real.pi) * 4000) * 83492791) % 4294967296 with hN
    have hlt : N % 100 < 100 := Nat.mod_lt _ (by norm_num)
    have hc : ((N % 100 : ℕ) : ℝ) ≤ 99 := by
      exact_mod_cast Nat.lt_succ_iff.mp hlt
    nlinarith
  · dsimp
    norm_num

theorem diskDensity_pi_rs825 : diskDensity (8 * Real.pi / 25) ⟨Real.pi, 0, 0⟩ = 1 := by
  have hπ := Real.pi_pos
  have hlen : (Vector3.mk Real.pi 0 0).length = Real.pi := length_mk_x _ Real.pi_pos.le
  unfold diskDensity
  dsimp only
  rw [hlen]
  rw [if_neg (by push_neg; constructor <;> linarith :
    ¬(Real.pi < 8 * Real.pi / 25 * 2.5 ∨ 8 * Real.pi / 25 * 12.0 < Real.pi))]
  rw [if_neg (by norm_num : ¬((0.2:ℝ) < |(0:ℝ)|))]
  rw [atan2_zero_of_pos _ Real.pi_pos]
  rw [show (0:ℝ) * 3.0 + Real.pi * 0.5 = Real.pi / 2 by ring, Real.sin_pi_div_two]
  rw [show Real.pi * 2.0 = 2 * Real.pi by ring, Real.sin_two_pi]
  rw [if_neg (by linarith : ¬(8 * Real.pi / 25 * 10.0 < Real.pi))]
  rw [if_neg (by linarith : ¬(Real.pi < 8 * Real.pi / 25 * 3.0))]
  norm_num [Real.exp_zero]

theorem vOrbital_pi_rs825 : vOrbital (8 * Real.pi / 25) Real.pi = 2 / 5 := by
  unfold vOrbital
  have harg : 8 * Real.pi / 25 / (2.0 * Real.pi) = 4 / 25 := by
    rw [div_eq_iff (by positivity : (2.0 * Real.pi) ≠ 0)]
    ring
  rw [harg, show (4:ℝ) / 25 = (2 / 5 : ℝ) ^ 2 by norm_num, Real.sqrt_sq (by norm_num)]
  exact min_eq_left (by norm_num)

theorem orbitalVelocity_pi_rs825 :
    orbitalVelocity (8 * Real.pi / 25) ⟨Real.pi, 0, 0⟩ = ⟨0, 0, -(2 / 5)⟩ := by
  have hl : (Vector3.mk Real.pi 0.0 0).length = Real.pi := by
    unfold Vector3.length Vector3.lengthSquared
    dsimp
    rw [show Real.pi * Real.pi + 0.0 * 0.0 + 0 * 0 = Real.pi ^ 2 by ring,
      Real.sqrt_sq Real.pi_pos.le]
  have hrad : (Vector3.mk Real.pi 0.0 0).normalized = ⟨1, 0, 0⟩ := by
    unfold Vector3.normalized
    rw [hl, if_pos Real.pi_pos]
    unfold Vector3.divs
    dsimp
    rw [div_self (ne_of_gt Real.pi_pos)]
    norm_num [Vector3.mk.injEq]
  have hlen : (Vector3.mk Real.pi 0 0).length = Real.pi := length_mk_x _ Real.pi_pos.le
  unfold orbitalVelocity
  dsimp only
  rw [hrad, hlen, vOrbital_pi_rs825]
  norm_num [Vector3.smul, Vector3.mk.injEq]

theorem doppler_pi_rs825_lb :
    1.5 ≤ dopplerFactor (8 * Real.pi / 25) ⟨Real.pi, 0, 0⟩ ⟨0, 0, 1⟩ := by
  rw [dopplerFactor_eq]
  have hlen : (Vector3.mk Real.pi 0 0).length = Real.pi := length_mk_x _ Real.pi_pos.le
  rw [hlen, vOrbital_pi_rs825, orbitalVelocity_pi_rs825]
  have hdot : (Vector3.mk (0:ℝ) 0 (-(2 / 5))).dot ⟨0, 0, 1⟩ = -(2 / 5) := by
    unfold Vector3.dot
    dsimp
    norm_num
  rw [hdot]
  rw [show (1:ℝ) - 2 / 5 * (2 / 5) = 21 / 25 by norm_num]
  rw [show (1:ℝ) - - -(2 / 5) = 3 / 5 by norm_num]
  rw [le_div_iff₀ (by norm_num : (0:ℝ) < 3 / 5)]
  calc (1.5:ℝ) * (3 / 5) = Real.sqrt ((9 / 10) ^ 2) := by
        rw [Real.sqrt_sq (by norm_num)]
        norm_num
    _ ≤ Real.sqrt (21 / 25) := Real.sqrt_le_sqrt (by norm_num)

theorem diskColor_x_ge_two :
    2 ≤ (diskColor (8 * Real.pi / 25) 1 Real.pi ⟨Real.pi, 0, 0⟩ ⟨0, 0, 1⟩ 0).x := by
  have hδraw := doppler_pi_rs825_lb
  unfold diskColor
  dsimp only
  set δ := dopplerFactor (8 * Real.pi / 25) ⟨Real.pi, 0, 0⟩ ⟨0, 0, 1⟩ with hδv
  rw [if_pos (rfl : (0:ℤ) = 0), if_pos (rfl : (0:ℤ) = 0), if_pos (rfl : (0:ℤ) = 0),
    if_pos (rfl : (0:ℤ) = 0), if_pos (rfl : (0:ℤ) = 0)]
  have ht : min (max ((Real.pi - 8 * Real.pi / 25 * 2.5) / (8 * Real.pi / 25 * 9.5)) 0.0) 1.0
      = 5 / 76 := by
    have h1 : (Real.pi - 8 * Real.pi / 25 * 2.5) / (8 * Real.pi / 25 * 9.5) = 5 / 76 := by
      rw [div_eq_iff (by positivity : (8 * Real.pi / 25 * 9.5) ≠ 0)]
      ring
    rw [h1, max_eq_left (by norm_num : (0.0:ℝ) ≤ 5 / 76),
      min_eq_left (by norm_num : (5:ℝ) / 76 ≤ 1.0)]
  rw [ht]
  rw [if_pos (by norm_num : (5:ℝ) / 76 < 0.5)]
  rw [if_pos (by linarith : (1.0:ℝ) < δ)]
  rw [min_eq_right (by linarith : (0.4:ℝ) ≤ (δ - 1.0) * 2.0)]
  simp only [Vector3.smul_x, Vector3.add_x]
  have hc : (1.5:ℝ) ^ 3 ≤ δ ^ 3 := pow_le_pow_left₀ (by norm_num) hδraw 3
  nlinarith [hc]

/-- C10 counterexample: with rs = 8 pi / 25, the ray from (pi, 0, 0) toward
(0, 0, 1), stepSize = -100 and maxDist = 0.01, the loop runs exactly one
iteration through the disk (density 1): the per-step color contribution is
emission x (1 - exp(50)) with emission.x at least 2, and the added background
is at most exp(50) per component, so the red component of the returned color
is negative, refuting nonnegativity over all stepSize. -/
theorem C10_counterexample :
    (trace (8 * Real.pi / 25) (mkRay ⟨Real.pi, 0, 0⟩ ⟨0, 0, 1⟩) (-100) 0.01).x < 0 := by
  have hπ := Real.pi_pos
  have hvel : (Vector3.mk (0:ℝ) 0 1).normalized = ⟨0, 0, 1⟩ := by
    have hl : (Vector3.mk (0:ℝ) 0 1).length = 1 := by
      unfold Vector3.length Vector3.lengthSquared
      dsimp
      norm_num
    unfold Vector3.normalized
    rw [hl, if_pos (by norm_num : (0:ℝ) < 1)]
    unfold Vector3.divs
    dsimp
    norm_num [Vector3.mk.injEq]
  have hS0 : initState (mkRay ⟨Real.pi, 0, 0⟩ ⟨0, 0, 1⟩)
      = ⟨⟨Real.pi, 0, 0⟩, ⟨0, 0, 1⟩, ⟨0, 0, 0⟩, 1, 0⟩ := by
    unfold initState mkRay
    rw [hvel]
  have hhor : ¬((Vector3.mk Real.pi 0 0).lengthSquared
      < 8 * Real.pi / 25 * (8 * Real.pi / 25)) := by
    unfold Vector3.lengthSquared
    dsimp
    push_neg
    nlinarith
  have hLSpi : (Vector3.mk Real.pi 0 0).lengthSquared = Real.pi ^ 2 := by
    unfold Vector3.lengthSquared
    dsimp
    ring
  have hsqrt : Real.sqrt ((Vector3.mk Real.pi 0 0).lengthSquared) = Real.pi := by
    rw [hLSpi, Real.sqrt_sq Real.pi_pos.le]
  have hdt : adaptiveDt (8 * Real.pi / 25) (-100)
      (Real.sqrt ((Vector3.mk Real.pi 0 0).lengthSquared)) = 0.02 := by
    rw [hsqrt]
    unfold adaptiveDt
    dsimp only
    have hd : 0 < Real.pi / (8 * Real.pi / 25 * 2 + 0.1) := div_pos hπ (by positivity)
    rw [if_pos (by nlinarith : -100 * (Real.pi / (8 * Real.pi / 25 * 2 + 0.1)) < 0.02)]
    rw [if_neg (by norm_num : ¬((0.5:ℝ) < 0.02))]
  unfold trace
  rw [hS0]
  rw [traceLoop]
  dsimp only
  rw [dif_pos (⟨by norm_num, by norm_num⟩ : (0:ℝ) < 0.01 ∧ (0.01:ℝ) < 1)]
  rw [if_neg hhor]
  rw [traceLoop]
  rw [dif_neg ?hc2]
  case hc2 =>
    intro hcontra
    have h1 := hcontra.1
    rw [traceStep_totalDist] at h1
    dsimp only at h1
    rw [hdt] at h1
    norm_num at h1
  rw [traceStep_color, traceStep_transmittance]
  dsimp only
  rw [diskDensity_pi_rs825, hsqrt]
  rw [if_pos (by norm_num : (0.001:ℝ) < 1), if_pos (by norm_num : (0.001:ℝ) < 1)]
  simp only [Vector3.add_x, Vector3.smul_x]
  have hE := diskColor_x_ge_two
  have hbg := sampleBackground_x_le_one
    (traceStep (8 * Real.pi / 25) (-100) ⟨⟨Real.pi, 0, 0⟩, ⟨0, 0, 1⟩, ⟨0, 0, 0⟩, 1, 0⟩).vel
  have hX : (51:ℝ) ≤ Real.exp (-(1 * 0.5) * (-100)) := by
    have h := Real.add_one_le_exp (50:ℝ)
    have harg : (-(1 * 0.5 : ℝ)) * (-100) = 50 := by norm_num
    rw [harg]
    linarith
  nlinarith [mul_nonneg
      (by linarith : (0:ℝ) ≤ (diskColor (8 * Real.pi / 25) 1 Real.pi
        ⟨Real.pi, 0, 0⟩ ⟨0, 0, 1⟩ 0).x - 2)
      (by linarith : (0:ℝ) ≤ Real.exp (-(1 * 0.5) * (-100)) - 1),
    mul_nonneg
      (by linarith : (0:ℝ) ≤ 1 - (sampleBackground (traceStep (8 * Real.pi / 25) (-100)
        ⟨⟨Real.pi, 0, 0⟩, ⟨0, 0, 1⟩, ⟨0, 0, 0⟩, 1, 0⟩).vel).x)
      (by linarith : (0:ℝ) ≤ Real.exp (-(1 * 0.5) * (-100)))]

/-- C10 (amended): the color returned by trace has nonnegative components,
for every constructed ray, every nonnegative stepSize (the contract's
parameter domain) and any maxDist; for negative stepSize the per-step factor
1 - stepTransmittance is negative on disk hits and trace can return negative
components, so the restriction is necessary. -/
theorem C10_trace_nonneg (rs stepSize maxDist : ℝ) (origin direction : Vector3)
    (hss : 0 ≤ stepSize) :
    (trace rs (mkRay origin direction) stepSize maxDist).Nonneg := by
  apply traceLoop_nonneg rs stepSize maxDist hss
  exact ⟨⟨le_refl 0, le_refl 0, le_refl 0⟩, show (0:ℝ) < 1 by norm_num,
    Vector3.normalized_lengthSquared_le direction⟩

/-- C10 witness: a concrete trace yields a componentwise nonnegative color. -/
theorem C10_witness : (trace 1 (mkRay ⟨0, 3, -20⟩ ⟨0, -3, 20⟩) 0.1 100).Nonneg :=
  C10_trace_nonneg 1 0.1 100 ⟨0, 3, -20⟩ ⟨0, -3, 20⟩ (by norm_num)

/-- C3 counterexample: at rs = 1 and the in-band disk point
(5 pi/4 cos(-pi/24), 0, 5 pi/4 sin(-pi/24)) both sines equal 1, the fades are
1, and diskDensity returns 1.5 > 1, refuting the claimed rescaling of the
noise to [0,1] and the claimed [0,1] bound on the returned density. -/
theorem C3_counterexample :
    1 < diskDensity 1 ⟨5 * Real.pi / 4 * Real.cos (-(Real.pi / 24)), 0,
      5 * Real.pi / 4 * Real.sin (-(Real.pi / 24))⟩ := by
  rw [diskDensity_highpoint]
  norm_num

/-- C3 (amended): diskDensity returns exactly 0 when r < 2.5 rs, when
r > 12 rs, or when the vertical coordinate exceeds 0.2 in absolute value;
inside the band the combined spiral/rings noise term lies in [-0.5, 1.5]
(it is not rescaled to [0,1]), and the returned density lies in [-0.5, 1.5]
after the edge fades and the vertical falloff. -/
theorem C3_density_bounds (rs : ℝ) (pos : Vector3) (hrs : 0 < rs) :
    (pos.length < rs * 2.5 → diskDensity rs pos = 0) ∧
    (rs * 12.0 < pos.length → diskDensity rs pos = 0) ∧
    (0.2 < |pos.y| → diskDensity rs pos = 0) ∧
    (-0.5 ≤ diskDensity rs pos ∧ diskDensity rs pos ≤ 1.5) := by
  unfold diskDensity
  dsimp only
  refine ⟨?_, ?_, ?_, ?_⟩
  · intro h
    rw [if_pos (Or.inl h)]
  · intro h
    rw [if_pos (Or.inr h)]
  · intro h
    by_cases hb : pos.length < rs * 2.5 ∨ rs * 12.0 < pos.length
    · rw [if_pos hb]
    · rw [if_neg hb, if_pos h]
  · by_cases hb : pos.length < rs * 2.5 ∨ rs * 12.0 < pos.length
    · rw [if_pos hb]
      norm_num
    · rw [if_neg hb]
      by_cases hy : (0.2:ℝ) < |pos.y|
      · rw [if_pos hy]
        norm_num
      · rw [if_neg hy]
        push_neg at hb
        obtain ⟨hb1, hb2⟩ := hb
        have hsp1 := Real.neg_one_le_sin (atan2 pos.z pos.x * 3.0 + pos.length * 0.5)
        have hsp2 := Real.sin_le_one (atan2 pos.z pos.x * 3.0 + pos.length * 0.5)
        have hrg1 := Real.neg_one_le_sin (pos.length * 2.0)
        have hrg2 := Real.sin_le_one (pos.length * 2.0)
        set F1 := (if pos.length < rs * 3.0
          then (pos.length - rs * 2.5) / (rs * 0.5) else 1.0) with hF1v
        set F := (if rs * 10.0 < pos.length
          then (rs * 12.0 - pos.length) / (rs * 2.0) else F1) with hFv
        have hF1b : 0 ≤ F1 ∧ F1 ≤ 1 := by
          rw [hF1v]
          split_ifs with h1
          · constructor
            · apply div_nonneg (by linarith) (by linarith)
            · rw [div_le_one (by linarith : (0:ℝ) < rs * 0.5)]
              linarith
          · norm_num
        have hFb : 0 ≤ F ∧ F ≤ 1 := by
          rw [hFv]
          split_ifs with h1
          · constructor
            · apply div_nonneg (by linarith) (by linarith)
            · rw [div_le_one (by linarith : (0:ℝ) < rs * 2.0)]
              linarith
          · exact hF1b
        have he0 : 0 < Real.exp (-|pos.y| * 10.0) := Real.exp_pos _
        have he1 : Real.exp (-|pos.y| * 10.0) ≤ 1 := by
          calc Real.exp (-|pos.y| * 10.0) ≤ Real.exp 0 := by
                apply Real.exp_le_exp.mpr
                nlinarith [abs_nonneg pos.y]
            _ = 1 := Real.exp_zero
        have hfe0 : 0 ≤ F * Real.exp (-|pos.y| * 10.0) := mul_nonneg hFb.1 he0.le
        have hfe1 : F * Real.exp (-|pos.y| * 10.0) ≤ 1 :=
          mul_le_one₀ hFb.2 he0.le he1
        set n := (Real.sin (atan2 pos.z pos.x * 3.0 + pos.length * 0.5) +
          Real.sin (pos.length * 2.0)) * 0.5 + 0.5 with hnv
        have hn1 : -0.5 ≤ n := by rw [hnv]; linarith
        have hn2 : n ≤ 1.5 := by rw [hnv]; linarith
        constructor
        · nlinarith [mul_nonneg (show (0:ℝ) ≤ n + 0.5 by linarith) hfe0]
        · nlinarith [mul_nonneg (show (0:ℝ) ≤ 1.5 - n by linarith) hfe0]

/-- C3 witness: concrete instantiation of the amended bounds at rs = 1 and a
point far outside the disk band. -/
theorem C3_witness :
    (0:ℝ) < 1 ∧ (-0.5 ≤ diskDensity 1 ⟨13, 0, 0⟩ ∧ diskDensity 1 ⟨13, 0, 0⟩ ≤ 1.5) :=
  ⟨by norm_num, (C3_density_bounds 1 ⟨13, 0, 0⟩ (by norm_num)).2.2.2⟩

theorem adaptiveDt_pi : adaptiveDt 1 0.1 Real.pi = 0.1 * (Real.pi / (1 * 2 + 0.1)) := by
  have h3 := Real.pi_gt_three
  have h4 := Real.pi_le_four
  have hform : 0.1 * (Real.pi / (1 * 2 + 0.1)) = Real.pi / 21 := by ring
  unfold adaptiveDt
  dsimp only
  rw [if_neg (by rw [hform]; push_neg; linarith :
    ¬(0.1 * (Real.pi / (1 * 2 + 0.1)) < 0.02))]
  rw [if_neg (by rw [hform]; push_neg; linarith :
    ¬((0.5:ℝ) < 0.1 * (Real.pi / (1 * 2 + 0.1))))]

/-- C4 counterexample: in the trace-loop iteration starting at
pos = (pi, 0, 0) with rs = 1, stepSize = 0.1 and transmittance 1, the
transmittance factor actually applied (exp(-(density 0.5) stepSize), density
= 1 there) differs from exp(-(density 0.5) dt) with dt the adaptive clamped
step of that same iteration, refuting the claim that Beer's law uses the
adaptive dt. -/
theorem C4_counterexample :
    (traceStep 1 0.1 ⟨⟨Real.pi, 0, 0⟩, ⟨0, 0, 1⟩, ⟨0, 0, 0⟩, 1, 0⟩).transmittance ≠
      1 * Real.exp (-(diskDensity 1 ⟨Real.pi, 0, 0⟩ * 0.5) *
        adaptiveDt 1 0.1 (Real.sqrt (Vector3.lengthSquared ⟨Real.pi, 0, 0⟩))) := by
  have hLS : (Vector3.mk Real.pi 0 0).lengthSquared = Real.pi ^ 2 := by
    unfold Vector3.lengthSquared
    dsimp
    ring
  have hsq : Real.sqrt ((Vector3.mk Real.pi 0 0).lengthSquared) = Real.pi := by
    rw [hLS, Real.sqrt_sq Real.pi_pos.le]
  rw [traceStep_transmittance]
  dsimp only
  rw [diskDensity_pi, hsq, adaptiveDt_pi]
  rw [if_pos (by norm_num : (0.001:ℝ) < 1)]
  apply ne_of_gt
  apply mul_lt_mul_of_pos_left _ (by norm_num : (0:ℝ) < 1)
  apply Real.exp_lt_exp.mpr
  have h3 := Real.pi_gt_three
  have e1 : -((1:ℝ) * 0.5) * (0.1 * (Real.pi / (1 * 2 + 0.1))) = -(Real.pi / 42) := by
    ring
  have e2 : -((1:ℝ) * 0.5) * 0.1 = -(1 / 20) := by norm_num
  rw [e1, e2, neg_lt_neg_iff]
  linarith

/-- C4 (amended): in every iteration with disk density above 0.001, the
per-step transmittance factor is exp(-(density 0.5) stepSize) using the raw
stepSize parameter (the in-code fixed approximation), not the adaptive dt; the
color gains emission x transmittance x (1 - stepTransmittance) and the
transmittance is multiplied by the factor; the adaptive
dt = stepSize (r / (2 rs + 0.1)) clamped to [0.02, 0.5] is used only to
advance the ray and the total distance in that iteration. -/
theorem C4_beer_step (rs stepSize : ℝ) (s : TraceState) :
    (0.001 < diskDensity rs s.pos →
      (traceStep rs stepSize s).transmittance
        = s.transmittance * Real.exp (-(diskDensity rs s.pos * 0.5) * stepSize) ∧
      (traceStep rs stepSize s).color
        = s.color + (diskColor rs (diskDensity rs s.pos)
            (Real.sqrt s.pos.lengthSquared) s.pos s.vel 0).smul
            (s.transmittance *
              (1 - Real.exp (-(diskDensity rs s.pos * 0.5) * stepSize)))) ∧
    (traceStep rs stepSize s).totalDist
      = s.totalDist + adaptiveDt rs stepSize (Real.sqrt s.pos.lengthSquared) ∧
    0.02 ≤ adaptiveDt rs stepSize (Real.sqrt s.pos.lengthSquared) ∧
    adaptiveDt rs stepSize (Real.sqrt s.pos.lengthSquared) ≤ 0.5 := by
  refine ⟨fun hd => ⟨?_, ?_⟩, traceStep_totalDist rs stepSize s,
    (adaptiveDt_mem rs stepSize _).1, (adaptiveDt_mem rs stepSize _).2⟩
  · rw [traceStep_transmittance, if_pos hd]
  · rw [traceStep_color, if_pos hd]

/-- C4 witness: the amended statement instantiated at the concrete in-disk
state used by the counterexample. -/
theorem C4_witness :
    0.001 < diskDensity 1 ⟨Real.pi, 0, 0⟩ ∧
      (traceStep 1 0.1 ⟨⟨Real.pi, 0, 0⟩, ⟨0, 0, 1⟩, ⟨0, 0, 0⟩, 1, 0⟩).transmittance
        = 1 * Real.exp (-(diskDensity 1 ⟨Real.pi, 0, 0⟩ * 0.5) * 0.1) := by
  have hd : (0.001:ℝ) < diskDensity 1 ⟨Real.pi, 0, 0⟩ := by
    rw [diskDensity_pi]
    norm_num
  exact ⟨hd, ((C4_beer_step 1 0.1 ⟨⟨Real.pi, 0, 0⟩, ⟨0, 0, 1⟩, ⟨0, 0, 0⟩, 1, 0⟩).1 hd).1⟩

/-- C5 counterexample: at rs = 1, disk position (2, 0, 0) (orbital speed
capped at 0.5) and the unit ray direction (40/41, 0, 9/41), the
orbital-velocity component toward the observer is 9/82 > 0, yet the Doppler
factor is 41 sqrt(3)/73 < 1 (transverse-Doppler redshift), refuting the claim
that a strictly positive approach component forces a factor above 1. -/
theorem C5_counterexample :
    0 < -((orbitalVelocity 1 ⟨2, 0, 0⟩).dot ⟨40/41, 0, 9/41⟩) ∧
      dopplerFactor 1 ⟨2, 0, 0⟩ ⟨40/41, 0, 9/41⟩ < 1 := by
  have hdot : (orbitalVelocity 1 ⟨2, 0, 0⟩).dot ⟨40/41, 0, 9/41⟩ = -(9/82) := by
    rw [orbitalVelocity_eval]
    unfold Vector3.dot
    dsimp
    norm_num
  constructor
  · rw [hdot]
    norm_num
  · rw [dopplerFactor_eq, hdot]
    have hlen : (Vector3.mk (2:ℝ) 0 0).length = 2 := length_mk_x 2 (by norm_num)
    rw [hlen, vOrbital_two]
    rw [show (1:ℝ) - 0.5 * 0.5 = 3/4 by norm_num]
    rw [show (1:ℝ) - - -(9/82) = 73/82 by norm_num]
    rw [div_lt_one (by norm_num : (0:ℝ) < 73/82)]
    have hsq := Real.sq_sqrt (by norm_num : (0:ℝ) ≤ 3/4)
    nlinarith [Real.sqrt_nonneg ((3:ℝ)/4)]

/-- C5 (amended): for unit (or shorter) ray directions: a strictly negative
approach component gives a Doppler factor below 1; the factor exceeds 1
exactly when 1 - beta_parallel < sqrt(1 - beta^2) (the transverse-Doppler
threshold beta_parallel > 1 - 1/gamma, so beta_parallel > 0 alone does not
suffice); and the factor differs from 1 by at most twice the orbital speed, so
it tends to 1 as the orbital speed tends to zero. -/
theorem C5_doppler_sanity (rs : ℝ) (pos rayDir : Vector3)
    (hray : rayDir.lengthSquared ≤ 1) :
    (-((orbitalVelocity rs pos).dot rayDir) < 0 → dopplerFactor rs pos rayDir < 1) ∧
    (1 < dopplerFactor rs pos rayDir ↔
      1 - -((orbitalVelocity rs pos).dot rayDir)
        < Real.sqrt (1 - vOrbital rs pos.length * vOrbital rs pos.length)) ∧
    |dopplerFactor rs pos rayDir - 1| ≤ 2 * vOrbital rs pos.length := by
  have hB0 := vOrbital_nonneg rs pos.length
  have hB1 := vOrbital_le rs pos.length
  have hu0 := sqrtOneSubB_pos rs pos.length
  have hu1 := sqrtOneSubB_le_one rs pos.length
  obtain ⟨hdl, hdu⟩ := dot_orbital_le_vOrbital rs pos rayDir hray
  rw [dopplerFactor_eq]
  set B := vOrbital rs pos.length with hBv
  set d := (orbitalVelocity rs pos).dot rayDir with hdv
  set u := Real.sqrt (1 - B * B) with huv
  have husq : u * u = 1 - B * B := Real.mul_self_sqrt (by nlinarith)
  have hden : 0 < 1 - -d := by linarith
  refine ⟨?_, ?_, ?_⟩
  · intro hd0
    rw [div_lt_one hden]
    linarith
  · rw [one_lt_div hden]
  · rw [abs_le]
    constructor
    · rw [le_sub_iff_add_le, le_div_iff₀ hden]
      by_cases hc : 1 - 2 * B ≤ 0
      · nlinarith
      · push_neg at hc
        have h1 : (-(2 * B) + 1) * (1 - -d) ≤ (1 - 2 * B) * (1 + B) := by nlinarith
        have h2 : (1 - 2 * B) * (1 + B) ≤ u := by
          rcases le_or_lt ((1 - 2 * B) * (1 + B)) 0 with h | h
          · linarith
          · nlinarith [husq, hu0.le]
        linarith
    · rw [sub_le_iff_le_add, div_le_iff₀ hden]
      nlinarith

/-- C5 witness: the amended statement instantiated at rs = 1, disk position
(2, 0, 0) and the unit ray direction (0, 0, 1). -/
theorem C5_witness :
    Vector3.lengthSquared ⟨0, 0, (1:ℝ)⟩ ≤ 1 ∧
      |dopplerFactor 1 ⟨2, 0, 0⟩ ⟨0, 0, 1⟩ - 1|
        ≤ 2 * vOrbital 1 (Vector3.length ⟨2, 0, 0⟩) := by
  have h : Vector3.lengthSquared ⟨0, 0, (1:ℝ)⟩ ≤ 1 := by
    unfold Vector3.lengthSquared
    dsimp
    norm_num
  exact ⟨h, (C5_doppler_sanity 1 ⟨2, 0, 0⟩ ⟨0, 0, 1⟩ h).2.2⟩

end

end BH
